import Mathlib

/-!
Verification development for the MarginPolish entry point (src/marginPolish.c).

The definitions below are a shallow embedding of the C code of
src/marginPolish.c.  Pure C functions become Lean functions; the ambient
filesystem is passed in explicitly (readability and directory predicates);
process termination via st_errAbort and the early `return` statements of
main become explicit outcome values.  Functions of external libraries
(sonLib, htslib, the polisher library) that are not part of src/ are
modelled from the specification and are marked as such in their doc
comments.
-/

/- ===== C strings, whitespace, sscanf token extraction ===== -/

/-- A C string, embedded as its list of characters. -/
abbrev CStr := List Char

/-- The C `isspace` classification used by `sscanf` with the `%s` conversion. -/
def isWspace (c : Char) : Bool :=
  c == ' ' || c == '\t' || c == '\n' || c == '\x0b' || c == '\x0c' || c == '\r'

/-- The portion of a name before its first whitespace character (the
specification's description of contig-name normalization). -/
def stripName (n : CStr) : CStr := n.takeWhile (fun c => !(isWspace c))

/-- Embeds `sscanf(fullRefSeqName, "%s", refSeqName)` from
parseReferenceSequences (marginPolish.c line 104): leading whitespace is
skipped; on success the maximal run of non-whitespace characters is read;
if the input holds only whitespace the conversion fails (sscanf returns a
value other than 1).  The C destination is the 128-byte stack buffer
`char refSeqName[128]` of line 103, so the C code is only defined — and
this embedding only faithful — for tokens of fewer than 128 characters
(a longer token overflows the buffer); theorems relying on this model
therefore carry an explicit token-length hypothesis. -/
def scanfToken (s : CStr) : Option CStr :=
  let rest := s.dropWhile isWspace
  if rest.isEmpty then none
  else some (rest.takeWhile (fun c => !(isWspace c)))

/- ===== stHash model (sonLib, external to src/) ===== -/

/-- Modelled from the spec: the sonLib stHash used by
parseReferenceSequences is a mapping from contig name to nucleotide
string; it is embedded as an association list whose stored values are
nullable strings (char pointers). -/
abbrev RefMap := List (CStr × Option CStr)

/-- Modelled from the spec: sonLib stHash_search; returns NULL both when
the key is absent and when the stored value is NULL, exactly as a C
char pointer result. -/
def stHash_search (m : RefMap) (k : CStr) : Option CStr :=
  match m.find? (fun q => q.1 == k) with
  | none => none
  | some q => q.2

/-- Modelled from the spec: sonLib stHash_insert replaces any existing
binding of the key and then adds the new binding. -/
def stHash_insert (m : RefMap) (k : CStr) (v : Option CStr) : RefMap :=
  (m.filter (fun q => !(q.1 == k))) ++ [(k, v)]

/-- Modelled from the spec: sonLib stHash_removeAndFreeKey deletes the
binding of the key. -/
def stHash_removeAndFreeKey (m : RefMap) (k : CStr) : RefMap :=
  m.filter (fun q => !(q.1 == k))

/-- One iteration of the name-munging loop of parseReferenceSequences
(marginPolish.c lines 100-113): read the first whitespace-delimited token
of the name; if the conversion succeeded and the token differs from the
full name, bind the token to the sequence found under the full name and
remove the full name. -/
def mungeStep (m : RefMap) (fullRefSeqName : CStr) : RefMap :=
  match scanfToken fullRefSeqName with
  | none => m
  | some refSeqName =>
    if refSeqName = fullRefSeqName then m
    else
      let refSeq := stHash_search m fullRefSeqName
      stHash_removeAndFreeKey (stHash_insert m refSeqName refSeq) fullRefSeqName

/-- Modelled from the spec: sonLib fastaReadToMap returns the hash of
contig names to sequences read from the FASTA file; the file content is
embedded as the list of its records. -/
def fastaReadToMap (fasta : List (CStr × CStr)) : RefMap :=
  fasta.map (fun p => (p.1, some p.2))

/-- Embeds parseReferenceSequences (marginPolish.c lines 88-117): read the
FASTA into a map, snapshot its keys, and munge each key in turn. -/
def parseReferenceSequences (fasta : List (CStr × CStr)) : RefMap :=
  let referenceSequences := fastaReadToMap fasta
  let refSeqNames := referenceSequences.map (fun q => q.1)
  refSeqNames.foldl mungeStep referenceSequences

/-- The entry a not-yet-munged FASTA record contributes to the map. -/
def pendEntry (p : CStr × CStr) : CStr × Option CStr := (p.1, some p.2)

/-- The entry a munged FASTA record contributes to the map: the stripped
name bound to the unchanged sequence. -/
def doneEntry (p : CStr × CStr) : CStr × Option CStr := (stripName p.1, some p.2)

/- ===== C library scalar helpers ===== -/

/-- Value of a (decimal digit) character list, most significant first. -/
def digitsToNat (cs : List Char) : Nat :=
  cs.foldl (fun acc c => acc * 10 + (c.toNat - 48)) 0

/-- Embeds C `atoi`: skip leading whitespace, read an optional sign and a
maximal run of digits; an input without digits yields 0. -/
def atoi (s : String) : Int :=
  match s.toList.dropWhile isWspace with
  | '-' :: rest => - (digitsToNat (rest.takeWhile Char.isDigit) : Int)
  | '+' :: rest => (digitsToNat (rest.takeWhile Char.isDigit) : Int)
  | cs => (digitsToNat (cs.takeWhile Char.isDigit) : Int)

/-- ASCII lower-casing on character codes, as C `tolower` acts on the
strings compared here. -/
def lowerNat (c : Char) : Nat :=
  if 65 ≤ c.toNat ∧ c.toNat ≤ 90 then c.toNat + 32 else c.toNat

/-- Modelled from the spec: sonLib stString_eqcase is a case-insensitive
string comparison. -/
def stString_eqcase (a b : String) : Bool :=
  (a.toList.map lowerNat) == (b.toList.map lowerNat)

/- ===== HELEN feature types and defaults (helenFeatures.h, external to src/) ===== -/

/-- Modelled from the spec: the HelenFeatureType enumeration of
helenFeatures.h, with the feature variants Simple, SplitRLE, ChannelRLE
and DiploidRLE next to the none value. -/
inductive HelenFeatureType where
  | HFEAT_NONE
  | HFEAT_SIMPLE_WEIGHT
  | HFEAT_SPLIT_RLE_WEIGHT
  | HFEAT_CHANNEL_RLE_WEIGHT
  | HFEAT_DIPLOID_RLE_WEIGHT
  deriving DecidableEq, Repr

/-- Modelled from the spec: default max run length for the split feature
type (the spec's defaults 10, 12, 50 for split, channel and diploid). -/
def POAFEATURE_SPLIT_MAX_RUN_LENGTH_DEFAULT : Int := 10

/-- Modelled from the spec: default max run length for the channel
feature type. -/
def POAFEATURE_CHANNEL_MAX_RUN_LENGTH_DEFAULT : Int := 12

/-- Modelled from the spec: default max run length for the diploid
feature type. -/
def POAFEATURE_DIPLOID_MAX_RUN_LENGTH_DEFAULT : Int := 50

/- ===== The configuration state of main and option processing ===== -/

/-- The configuration variables of main (marginPolish.c lines 264-290)
that the command-line options write. -/
structure MainConfig where
  logLevelString : String
  outputBase : String
  regionStr : Option String
  numThreads : Int
  outputRepeatCountBase : Option String
  outputPoaTsvBase : Option String
  outputPoaDotBase : Option String
  outputHaplotypeBamBase : Option String
  outputHaplotypeReadsBase : Option String
  maxDepth : Int
  diploid : Bool
  helenFeatureType : HelenFeatureType
  setDefaultHelenFeature : Bool
  trueReferenceBam : Option String
  splitWeightMaxRunLength : Int
  deriving DecidableEq, Repr

/-- The initial values of main's configuration variables
(marginPolish.c lines 267-290). -/
def initialMainConfig : MainConfig where
  logLevelString := "critical"
  outputBase := "output"
  regionStr := none
  numThreads := 1
  outputRepeatCountBase := none
  outputPoaTsvBase := none
  outputPoaDotBase := none
  outputHaplotypeBamBase := none
  outputHaplotypeReadsBase := none
  maxDepth := -1
  diploid := false
  helenFeatureType := .HFEAT_NONE
  setDefaultHelenFeature := false
  trueReferenceBam := none
  splitWeightMaxRunLength := 0

/-- Embeds getFileBase (marginPolish.c lines 74-83); the filesystem enters
through the predicate telling which paths name directories.  If the
argument names a directory, a trailing slash is stripped and the default
file name is appended; otherwise the argument is returned unchanged. -/
def getFileBase (isDir : String → Bool) (base defawlt : String) : String :=
  if isDir base then
    let b := if base.toList.getLast? = some '/' then String.mk base.toList.dropLast else base
    b ++ "/" ++ defawlt
  else base

/-- Outcome of option processing: continue with an updated configuration,
return from main with an exit code, or terminate through st_errAbort. -/
inductive OptOutcome where
  | ok (cfg : MainConfig)
  | exited (code : Int)
  | aborted (msg : String)
  deriving DecidableEq, Repr

/-- Embeds one execution of the option switch of main
(marginPolish.c lines 333-415).  Note the missing break after case 'p'
(lines 348-352): control falls through into case 'i', so the depth option
also assigns outputRepeatCountBase from the same option argument.  The
default branch prints usage and returns 0 (lines 406-414). -/
def processOption (isDir : String → Bool) (cfg : MainConfig) (key : Char) (optarg : String) :
    OptOutcome :=
  if key = 'a' then .ok { cfg with logLevelString := optarg }
  else if key = 'h' then .exited 0
  else if key = 'o' then .ok { cfg with outputBase := getFileBase isDir optarg "output" }
  else if key = 'r' then .ok { cfg with regionStr := some optarg }
  else if key = 'p' then
    let maxDepth := atoi optarg
    if maxDepth < 0 then .aborted "Invalid maxDepth"
    else .ok { cfg with maxDepth := maxDepth,
                        outputRepeatCountBase := some (getFileBase isDir optarg "repeatCount") }
  else if key = 'i' then
    .ok { cfg with outputRepeatCountBase := some (getFileBase isDir optarg "repeatCount") }
  else if key = 'j' then .ok { cfg with outputPoaTsvBase := some (getFileBase isDir optarg "poa") }
  else if key = 'd' then .ok { cfg with outputPoaDotBase := some (getFileBase isDir optarg "poa") }
  else if key = 'm' then
    .ok { cfg with outputHaplotypeBamBase := some (getFileBase isDir optarg "haplotype") }
  else if key = 'n' then
    .ok { cfg with outputHaplotypeReadsBase := some (getFileBase isDir optarg "haplotype") }
  else if key = 'F' then
    if stString_eqcase optarg "simpleWeight" || stString_eqcase optarg "simple" then
      .ok { cfg with helenFeatureType := .HFEAT_SIMPLE_WEIGHT }
    else if stString_eqcase optarg "rleWeight" || stString_eqcase optarg "splitRleWeight"
        || stString_eqcase optarg "split" then
      .ok { cfg with helenFeatureType := .HFEAT_SPLIT_RLE_WEIGHT }
    else if stString_eqcase optarg "channelRleWeight" || stString_eqcase optarg "channel" then
      .ok { cfg with helenFeatureType := .HFEAT_CHANNEL_RLE_WEIGHT }
    else if stString_eqcase optarg "diploidRleWeight" || stString_eqcase optarg "diploid" then
      .ok { cfg with helenFeatureType := .HFEAT_CHANNEL_RLE_WEIGHT }
    else .exited 1
  else if key = 'u' then .ok { cfg with trueReferenceBam := some optarg }
  else if key = 'f' then
    if cfg.helenFeatureType = .HFEAT_NONE then .ok { cfg with setDefaultHelenFeature := true }
    else .ok cfg
  else if key = 'L' then
    let v := atoi optarg
    if v ≤ 0 then .aborted "Invalid splitRleWeightMaxRL" else
    .ok { cfg with splitWeightMaxRunLength := v }
  else if key = 't' then
    let v := atoi optarg
    if v ≤ 0 then .aborted "Invalid thread count" else .ok { cfg with numThreads := v }
  else if key = '2' then .ok { cfg with diploid := true }
  else .exited 0

/-- Embeds the getopt_long loop of main (marginPolish.c lines 304-416):
the options already tokenized by getopt are processed left to right until
the list ends or a branch leaves main. -/
def processOptions (isDir : String → Bool) (cfg : MainConfig) :
    List (Char × String) → OptOutcome
  | [] => .ok cfg
  | (key, optarg) :: rest =>
    match processOption isDir cfg key optarg with
    | .ok cfg2 => processOptions isDir cfg2 rest
    | outcome => outcome

/-- Embeds the entry of main up to the end of option processing
(marginPolish.c lines 292-416): with fewer than four argv entries main
prints usage and returns 0; otherwise the option tokens are processed. -/
def mainRun (isDir : String → Bool) (argv : List String) (opts : List (Char × String)) :
    OptOutcome :=
  if argv.length < 4 then .exited 0
  else processOptions isDir initialMainConfig opts

/-- A filesystem in which no path names a directory (used for concrete
evaluations). -/
def noDirs : String → Bool := fun _ => false

/-- Embeds the feature initialization of main (marginPolish.c lines
477-495): resolve the default feature type requested by -f, then give
splitWeightMaxRunLength its per-feature-type default when it is unset. -/
def applyFeatureDefaults (cfg : MainConfig) : MainConfig :=
  let cfg1 :=
    if cfg.helenFeatureType = .HFEAT_NONE ∧ cfg.setDefaultHelenFeature = true then
      { cfg with helenFeatureType :=
          if cfg.diploid then .HFEAT_DIPLOID_RLE_WEIGHT else .HFEAT_SPLIT_RLE_WEIGHT }
    else cfg
  if cfg1.helenFeatureType ≠ .HFEAT_NONE ∧ cfg1.splitWeightMaxRunLength = 0 then
    match cfg1.helenFeatureType with
    | .HFEAT_SPLIT_RLE_WEIGHT =>
      { cfg1 with splitWeightMaxRunLength := POAFEATURE_SPLIT_MAX_RUN_LENGTH_DEFAULT }
    | .HFEAT_CHANNEL_RLE_WEIGHT =>
      { cfg1 with splitWeightMaxRunLength := POAFEATURE_CHANNEL_MAX_RUN_LENGTH_DEFAULT }
    | .HFEAT_DIPLOID_RLE_WEIGHT =>
      { cfg1 with splitWeightMaxRunLength := POAFEATURE_DIPLOID_MAX_RUN_LENGTH_DEFAULT }
    | _ => cfg1
  else cfg1

/- ===== Polish parameters and the depth override ===== -/

/-- The fields of the parameter set read by main that this development
uses.  The shuffleSeed field is modelled from the spec: the parameter
seed of the deterministic shuffle. -/
structure PolishParams where
  maxDepth : Int
  shuffleChunks : Bool
  shuffleSeed : Nat
  useRunLengthEncoding : Bool
  deriving DecidableEq, Repr

/-- Embeds the depth override of main (marginPolish.c lines 501-505): a
nonnegative maxDepth from the command line replaces the parameter
value. -/
def applyMaxDepthOverride (cfgMaxDepth : Int) (params : PolishParams) : PolishParams :=
  if cfgMaxDepth ≥ 0 then { params with maxDepth := cfgMaxDepth } else params

/- ===== Startup sanity checks ===== -/

/-- Embeds the file sanity checks of main (marginPolish.c lines 432-458)
over a readability predicate describing the filesystem.  st_errAbort
terminates the process, so the statements after it inside the same branch
are unreachable; the embedding returns at each abort.  In particular the
check of the sibling index file sits after the abort inside the branch
taken when the BAM itself is unreadable, so it can never execute. -/
def startupSanityCheck (readable : String → Bool) (bamInFile referenceFastaFile paramsFile : String)
    (trueReferenceBam trueReferenceBamHap2 : Option String) : Option String :=
  if !(readable bamInFile) then some ("Could not read from file: " ++ bamInFile)
  else if !(readable referenceFastaFile) then
    some ("Could not read from file: " ++ referenceFastaFile)
  else if !(readable paramsFile) then some ("Could not read from file: " ++ paramsFile)
  else if (match trueReferenceBam with | some f => !(readable f) | none => false) then
    some "Could not read from file: trueReferenceBam"
  else if (match trueReferenceBamHap2 with | some f => !(readable f) | none => false) then
    some "Could not read from file: trueReferenceBamHap2"
  else none

/-- A concrete filesystem for the index-check evaluation: the BAM, the
assembly and the parameter file are readable, and nothing else is; in
particular the sibling index in.bam.bai does not exist. -/
def c2Readable : String → Bool :=
  fun s => s == "in.bam" || s == "asm.fa" || s == "params.json"

/- ===== Output file naming ===== -/

/-- Embeds the opening of the polished-reference output files
(marginPolish.c lines 528-544): the first file is BASE.h1.fa in diploid
mode and BASE.fa otherwise (stString_print of the two format strings),
and in diploid mode a second file BASE.h2.fa is opened. -/
def openedOutputFiles (diploid : Bool) (outputBase : String) : List String :=
  let polishedReferenceOutFile :=
    if diploid then outputBase ++ ".h1.fa" else outputBase ++ ".fa"
  if diploid then [polishedReferenceOutFile, outputBase ++ ".h2.fa"]
  else [polishedReferenceOutFile]

/- ===== Chunk order and the deterministic shuffle ===== -/

/-- A step of a 64-bit linear congruential generator; the modulus is
2 to the 64. -/
def lcgNext (s : Nat) : Nat :=
  (6364136223846793005 * s + 1442695040888963407) % 18446744073709551616

/-- Recursive worker of the shuffle: at each step the pseudo-random state
selects the element brought to the front by rotating the remaining list,
moves it to the accumulator and advances the generator. -/
def stList_shuffle_go : Nat → Nat → List Nat → List Nat → List Nat
  | 0, _, xs, acc => acc ++ xs
  | fuel + 1, s, xs, acc =>
    match xs.rotate (s % xs.length) with
    | [] => acc
    | x :: rest => stList_shuffle_go fuel (lcgNext s) rest (x :: acc)

/-- Modelled from the spec: sonLib stList_shuffle, required by the spec
to be a parameter-seeded pseudo-random permutation of the list. -/
def stList_shuffle (seed : Nat) (l : List Nat) : List Nat :=
  stList_shuffle_go l.length seed l []

/-- Embeds the chunk-order construction of main (marginPolish.c lines
584-590): the list of chunk indices 0..chunkCount-1, shuffled exactly
when the shuffleChunks parameter is set. -/
def computeChunkOrder (params : PolishParams) (chunkCount : Nat) : List Nat :=
  let order := List.range chunkCount
  if params.shuffleChunks then stList_shuffle params.shuffleSeed order else order

/- ===== The chunk loop's result slots ===== -/

/-- One write into a preallocated result array at a chunk index. -/
def writeResultSlot {α : Type} (results : Nat → Option α) (idx : Nat) (v : α) :
    Nat → Option α :=
  fun j => if j = idx then some v else results j

/-- Embeds the per-chunk loop of main (marginPolish.c lines 599-883) as it
acts on the result arrays: each iteration takes its chunk index from the
order list and stores the chunk's polish output at that index and no
other (lines 814-817 and 857). -/
def runChunkLoop {α : Type} (order : List Nat) (polish : Nat → α)
    (results : Nat → Option α) : Nat → Option α :=
  match order with
  | [] => results
  | i :: rest => runChunkLoop rest polish (writeResultSlot results i (polish i))

/-- The write events of the chunk loop: one write per iteration, at the
iteration's own chunk index. -/
def chunkWriteEvents {α : Type} (order : List Nat) (polish : Nat → α) : List (Nat × α) :=
  order.map (fun i => (i, polish i))

/- ===== Merging ===== -/

/-- Embeds the contig-grouping loop of handleMerge (marginPolish.c lines
132-167).  The remaining chunk names stand for the chunks from position
chunkIdx on; when the list is exhausted or the name changes, the merged
contig sequence for the group starting at contigStartIdx is written as a
FASTA record (name, sequence).  The merge function abstracts
mergeContigChunksThreaded of the polisher library. -/
def hmLoop (merge : Nat → Nat → String → String) : List String → Nat → Nat → String →
    List (String × String)
  | [], chunkIdx, contigStartIdx, curName =>
    [(curName, merge contigStartIdx chunkIdx curName)]
  | n :: rest, chunkIdx, contigStartIdx, curName =>
    if n = curName then hmLoop merge rest (chunkIdx + 1) contigStartIdx curName
    else (curName, merge contigStartIdx chunkIdx curName)
      :: hmLoop merge rest (chunkIdx + 1) chunkIdx n

/-- Embeds handleMerge (marginPolish.c lines 119-169) as the list of FASTA
records it writes to the output file. -/
def handleMerge (merge : Nat → Nat → String → String) (chunkNames : List String) :
    List (String × String) :=
  match chunkNames with
  | [] => []
  | c0 :: rest => hmLoop merge rest 1 0 c0

/-- Embeds the contig-grouping loop of handleDiploidMerge (marginPolish.c
lines 187-225): the same grouping as hmLoop, but each group write emits
the first merged sequence under the contig name to the haplotype-1 file
and the second merged sequence under the same contig name to the
haplotype-2 file.  The merge function abstracts
mergeContigChunksDiploidThreaded of the polisher library. -/
def dmLoop (merge : Nat → Nat → String → String × String) : List String → Nat → Nat → String →
    List (String × String) × List (String × String)
  | [], chunkIdx, contigStartIdx, curName =>
    let seqs := merge contigStartIdx chunkIdx curName
    ([(curName, seqs.1)], [(curName, seqs.2)])
  | n :: rest, chunkIdx, contigStartIdx, curName =>
    if n = curName then dmLoop merge rest (chunkIdx + 1) contigStartIdx curName
    else
      let seqs := merge contigStartIdx chunkIdx curName
      let tail := dmLoop merge rest (chunkIdx + 1) chunkIdx n
      ((curName, seqs.1) :: tail.1, (curName, seqs.2) :: tail.2)

/-- Embeds handleDiploidMerge (marginPolish.c lines 172-227) as the pair
of FASTA record lists written to the haplotype-1 and haplotype-2 output
files. -/
def handleDiploidMerge (merge : Nat → Nat → String → String × String)
    (chunkNames : List String) : List (String × String) × List (String × String) :=
  match chunkNames with
  | [] => ([], [])
  | c0 :: rest => dmLoop merge rest 1 0 c0

/- ===== The pipeline around the empty-workset check ===== -/

/-- The per-chunk data of a BamChunk that the merge stage reads. -/
structure BamChunk where
  refSeqName : String
  deriving DecidableEq, Repr

/-- Result of the polishing pipeline after chunker construction: either a
fatal abort, or the polished chunks together with the FASTA records
written at merge time. -/
inductive PipelineResult where
  | fatalError (msg : String)
  | finished (polishedChunks : List (Nat × String)) (fastaWrites : List (String × String))
  deriving DecidableEq, Repr

/-- Modelled from the spec: sonLib st_errAbort terminates the process
with a nonzero exit code after logging the message. -/
def st_errAbort_exitCode : Nat := 1

/-- The exit code of a pipeline outcome: the st_errAbort code on a fatal
error, 0 on completion. -/
def pipelineExitCode : PipelineResult → Nat
  | .fatalError _ => st_errAbort_exitCode
  | .finished _ _ => 0

/-- Embeds main from chunker construction to merging (marginPolish.c
lines 548-891, haploid path): if the chunker produced no chunks, main
aborts through st_errAbort before the chunk loop and before any merge
write; otherwise the chunk order is built, every chunk is polished into
its result slot, and the merged contigs are written. -/
def polishPipeline (params : PolishParams) (chunks : List BamChunk)
    (polish : Nat → String) (merge : Nat → Nat → String → String) : PipelineResult :=
  if chunks.length = 0 then .fatalError "> Found no valid reads!\n"
  else
    let order := computeChunkOrder params chunks.length
    let polished := chunkWriteEvents order polish
    let writes := handleMerge merge (chunks.map BamChunk.refSeqName)
    .finished polished writes

/- ===== Concrete inputs for witnesses and counterexamples ===== -/

/-- A two-contig FASTA whose names carry metadata after the contig name
and whose stripped names are distinct. -/
def fastaDistinct : List (CStr × CStr) :=
  [("ctg1 length=1000".toList, "ACGT".toList), ("ctg2".toList, "GG".toList)]

/-- A two-contig FASTA whose names share the same first token: both strip
to the name c. -/
def fastaColliding : List (CStr × CStr) :=
  [("c 1".toList, "AAA".toList), ("c 2".toList, "CCC".toList)]

/-- A concrete parameter set with the shuffle enabled. -/
def paramsShuffle : PolishParams where
  maxDepth := 0
  shuffleChunks := true
  shuffleSeed := 7
  useRunLengthEncoding := true

/- ===== Helper lemmas: shuffle is a permutation ===== -/

theorem stList_shuffle_go_perm (fuel : Nat) :
    ∀ (s : Nat) (xs acc : List Nat), (stList_shuffle_go fuel s xs acc).Perm (xs ++ acc) := by
  induction fuel with
  | zero => intro s xs acc; simpa [stList_shuffle_go] using List.perm_append_comm
  | succ n ih =>
    intro s xs acc
    simp only [stList_shuffle_go]
    cases h : xs.rotate (s % xs.length) with
    | nil =>
      have hx : xs = [] := List.rotate_eq_nil_iff.mp h
      simp [hx]
    | cons x rest =>
      have hx : xs.Perm (x :: rest) := by
        have hr := List.rotate_perm xs (s % xs.length)
        rw [h] at hr
        exact hr.symm
      have h1 : (stList_shuffle_go n (lcgNext s) rest (x :: acc)).Perm (rest ++ (x :: acc)) :=
        ih (lcgNext s) rest (x :: acc)
      have h2 : (rest ++ (x :: acc)).Perm (x :: (rest ++ acc)) := List.perm_middle
      have h3 : (x :: (rest ++ acc)).Perm (xs ++ acc) :=
        List.Perm.append_right acc hx.symm
      exact (h1.trans h2).trans h3

theorem stList_shuffle_perm (seed : Nat) (l : List Nat) : (stList_shuffle seed l).Perm l := by
  simpa [stList_shuffle] using stList_shuffle_go_perm l.length seed l []

theorem computeChunkOrder_perm (params : PolishParams) (n : Nat) :
    (computeChunkOrder params n).Perm (List.range n) := by
  unfold computeChunkOrder
  by_cases h : params.shuffleChunks
  · simpa [h] using stList_shuffle_perm params.shuffleSeed (List.range n)
  · simp [h]

/- ===== Helper lemmas: the chunk loop writes each slot of the order ===== -/

theorem runChunkLoop_eq {α : Type} (order : List Nat) (polish : Nat → α) :
    ∀ (results : Nat → Option α) (j : Nat),
      runChunkLoop order polish results j =
        if j ∈ order then some (polish j) else results j := by
  induction order with
  | nil => intro results j; simp [runChunkLoop]
  | cons i rest ih =>
    intro results j
    simp only [runChunkLoop]
    rw [ih]
    by_cases hr : j ∈ rest
    · simp [hr, List.mem_cons]
    · by_cases hji : j = i
      · subst hji
        simp [hr, writeResultSlot]
      · simp [hr, hji, writeResultSlot, List.mem_cons]

/- ===== Helper lemma: the diploid merge writes the same headers ===== -/

theorem dmLoop_headers (merge : Nat → Nat → String → String × String) :
    ∀ (rest : List String) (chunkIdx contigStartIdx : Nat) (curName : String),
      (dmLoop merge rest chunkIdx contigStartIdx curName).1.map Prod.fst =
        (dmLoop merge rest chunkIdx contigStartIdx curName).2.map Prod.fst := by
  intro rest
  induction rest with
  | nil => intro chunkIdx contigStartIdx curName; simp [dmLoop]
  | cons n rest ih =>
    intro chunkIdx contigStartIdx curName
    by_cases h : n = curName
    · simpa [dmLoop, h] using ih (chunkIdx + 1) contigStartIdx curName
    · simpa [dmLoop, h] using ih (chunkIdx + 1) chunkIdx n

/- ===== Claim theorems ===== -/

/-- C1: the claim says that for an invocation passing -p D with D >= 0 the
only configuration change caused by the flag is maxDepth := D.  The code
disagrees: case 'p' of the option switch has no break and falls through
into case 'i', so -p 5 also sets outputRepeatCountBase to the depth
string, a field the claim says is set only by -i; without -p the field
stays unset. -/
theorem c1_depth_flag_also_sets_repeat_count_base :
    processOptions noDirs initialMainConfig [('p', "5")] =
      .ok { initialMainConfig with maxDepth := 5, outputRepeatCountBase := some "5" }
    ∧ initialMainConfig.outputRepeatCountBase = none
    ∧ (applyMaxDepthOverride 5
        { maxDepth := 0, shuffleChunks := false, shuffleSeed := 0,
          useRunLengthEncoding := true }).maxDepth = 5 := by
  refine ⟨by decide, rfl, rfl⟩

/-- C2: the claim says a readable BAM without a readable sibling index
in.bam.bai makes the program terminate nonzero at startup.  The code's
index check is unreachable: it sits inside the branch taken when the BAM
itself is unreadable, after the terminating st_errAbort.  On the concrete
filesystem where in.bam, asm.fa and params.json are readable and
in.bam.bai is not, the startup sanity check aborts nothing. -/
theorem c2_missing_index_not_detected_at_startup :
    c2Readable "in.bam" = true
    ∧ c2Readable "in.bam.bai" = false
    ∧ startupSanityCheck c2Readable "in.bam" "asm.fa" "params.json" none none = none := by
  refine ⟨by decide, by decide, by decide⟩

/-- C3 counterexample: an invocation with fewer than the three required
positional arguments is a failing invocation, yet main returns exit code
0 after printing usage, contradicting the claim that every failing
invocation exits nonzero. -/
theorem c3_short_argv_exits_zero :
    mainRun noDirs ["marginPolish"] [] = .exited 0 := by decide

/-- C3 amended: every invocation with fewer than the three required
positional arguments prints usage and returns exit code 0, and whenever
option processing reaches an option key outside the recognized set (the
default branch of the switch, as getopt reports for an unrecognized
option) main likewise prints usage and returns 0; so exit code 0 is not
returned only on success. -/
theorem c3_usage_paths_exit_zero (isDir : String → Bool) (argv : List String)
    (opts : List (Char × String)) (cfg : MainConfig) (key : Char) (optarg : String)
    (hshort : argv.length < 4)
    (hkey : key ∉ ['a', 'h', 'o', 'r', 'p', 'i', 'j', 'd', 'm', 'n', 'F', 'u', 'f', 'L',
      't', '2']) :
    mainRun isDir argv opts = .exited 0
    ∧ processOption isDir cfg key optarg = .exited 0 := by
  constructor
  · unfold mainRun
    rw [if_pos hshort]
  · simp only [List.mem_cons, List.not_mem_nil, or_false, not_or] at hkey
    obtain ⟨ha, hh, ho, hr, hp, hi, hj, hd, hm, hn, hF, hu, hf, hL, ht, h2⟩ := hkey
    simp [processOption, ha, hh, ho, hr, hp, hi, hj, hd, hm, hn, hF, hu, hf, hL, ht, h2]

/-- C3 witness: the amended theorem applied to the one-argument
invocation and to the key that getopt reports for an unknown option. -/
theorem c3_witness :
    mainRun noDirs ["marginPolish"] [] = .exited 0
    ∧ processOption noDirs initialMainConfig '?' "" = .exited 0 :=
  c3_usage_paths_exit_zero noDirs ["marginPolish"] [] initialMainConfig '?' ""
    (by decide) (by decide)

/-- C4: the claim says -F diploidRleWeight selects the DiploidRLE feature
variant and hence (without -L) the diploid default max run length 50.
The code maps diploidRleWeight to HFEAT_CHANNEL_RLE_WEIGHT, the same
variant as channelRleWeight, so the default applied is the channel
default 12, not the diploid default 50. -/
theorem c4_diploid_feature_arg_selects_channel_variant :
    processOptions noDirs initialMainConfig [('F', "diploidRleWeight")] =
      .ok { initialMainConfig with helenFeatureType := .HFEAT_CHANNEL_RLE_WEIGHT }
    ∧ (applyFeatureDefaults
        { initialMainConfig with
            helenFeatureType := .HFEAT_CHANNEL_RLE_WEIGHT }).splitWeightMaxRunLength = 12
    ∧ POAFEATURE_DIPLOID_MAX_RUN_LENGTH_DEFAULT = 50 := by
  refine ⟨by decide, by decide, rfl⟩

/-- C5: with shuffleChunks set in the parameters, the chunk processing
order is the parameter-seeded pseudo-random permutation of the chunk
indices 0..chunkCount-1: it is drawn from the shuffle seeded by the
parameter seed, it is a permutation of the index range, and any second
run with the identical parameters and chunk count produces the identical
order. -/
theorem c5_shuffle_is_seeded_deterministic_permutation (params : PolishParams) (n : Nat)
    (hs : params.shuffleChunks = true) :
    computeChunkOrder params n = stList_shuffle params.shuffleSeed (List.range n)
    ∧ (computeChunkOrder params n).Perm (List.range n)
    ∧ ∀ (params2 : PolishParams) (n2 : Nat), params2 = params → n2 = n →
        computeChunkOrder params2 n2 = computeChunkOrder params n := by
  refine ⟨by simp [computeChunkOrder, hs], computeChunkOrder_perm params n, ?_⟩
  intro params2 n2 hp hn
  rw [hp, hn]

/-- C5 witness: the theorem applied to the concrete shuffling parameter
set with seed 7 and five chunks. -/
theorem c5_witness :
    computeChunkOrder paramsShuffle 5 = stList_shuffle 7 (List.range 5)
    ∧ (computeChunkOrder paramsShuffle 5).Perm (List.range 5)
    ∧ computeChunkOrder paramsShuffle 5 = computeChunkOrder paramsShuffle 5 :=
  ⟨(c5_shuffle_is_seeded_deterministic_permutation paramsShuffle 5 rfl).1,
   (c5_shuffle_is_seeded_deterministic_permutation paramsShuffle 5 rfl).2.1,
   (c5_shuffle_is_seeded_deterministic_permutation paramsShuffle 5 rfl).2.2 paramsShuffle 5
     rfl rfl⟩

/-- C7: if the chunker produces zero chunks, the pipeline terminates with
the st_errAbort fatal error (nonzero exit code) before any chunk is
polished and before any contig FASTA record is written: the outcome is
the fatal error carrying no polished chunk and no merge write. -/
theorem c7_empty_workset_aborts (params : PolishParams) (polish : Nat → String)
    (merge : Nat → Nat → String → String) :
    polishPipeline params [] polish merge = .fatalError "> Found no valid reads!\n"
    ∧ pipelineExitCode (polishPipeline params [] polish merge) ≠ 0 := by
  refine ⟨rfl, ?_⟩
  rw [show polishPipeline params [] polish merge
      = PipelineResult.fatalError "> Found no valid reads!\n" from rfl]
  decide

/-- C8: in diploid mode the two output FASTA files receive exactly the
same contig headers in the same order: for every merge function and every
chunk name sequence, the header sequence written to the haplotype-1 file
equals the header sequence written to the haplotype-2 file. -/
theorem c8_diploid_outputs_have_identical_headers
    (merge : Nat → Nat → String → String × String) (chunkNames : List String) :
    (handleDiploidMerge merge chunkNames).1.map Prod.fst =
      (handleDiploidMerge merge chunkNames).2.map Prod.fst := by
  cases chunkNames with
  | nil => rfl
  | cons c0 rest => simpa [handleDiploidMerge] using dmLoop_headers merge rest 1 0 c0

/-- C9: with output base BASE, haploid mode opens exactly the single
output file BASE.fa and diploid mode opens exactly the two files
BASE.h1.fa and BASE.h2.fa. -/
theorem c9_output_file_names (base : String) :
    openedOutputFiles false base = [base ++ ".fa"]
    ∧ openedOutputFiles true base = [base ++ ".h1.fa", base ++ ".h2.fa"] :=
  ⟨rfl, rfl⟩

/-- C10: the chunk-order list built before the parallel loop is a
permutation of the chunk indices 0..chunkCount-1 whether or not the
shuffle runs; each loop iteration performs exactly one result-array write,
at its own chunk index, so each index below chunkCount is written exactly
once; and when merging begins every result slot below chunkCount holds
the polished consensus for its chunk. -/
theorem c10_result_slots_written_exactly_once {α : Type} (params : PolishParams) (n : Nat)
    (polish : Nat → α) (j : Nat) (hj : j < n) :
    (computeChunkOrder params n).Perm (List.range n)
    ∧ ((chunkWriteEvents (computeChunkOrder params n) polish).map Prod.fst).count j = 1
    ∧ runChunkLoop (computeChunkOrder params n) polish (fun _ => none) j = some (polish j) := by
  have hperm := computeChunkOrder_perm params n
  have hmem : j ∈ computeChunkOrder params n := hperm.mem_iff.mpr (List.mem_range.mpr hj)
  refine ⟨hperm, ?_, ?_⟩
  · have hidx : (chunkWriteEvents (computeChunkOrder params n) polish).map Prod.fst =
        computeChunkOrder params n := by
      simp only [chunkWriteEvents, List.map_map]
      show List.map (fun i => i) (computeChunkOrder params n) = computeChunkOrder params n
      simp
    rw [hidx, hperm.count_eq]
    exact List.count_eq_one_of_mem (List.nodup_range n) (List.mem_range.mpr hj)
  · rw [runChunkLoop_eq]
    simp [hmem]

/-- C10 witness: the theorem applied with the shuffling parameter set,
four chunks, the identity polish result and slot 2. -/
theorem c10_witness :
    (computeChunkOrder paramsShuffle 4).Perm (List.range 4)
    ∧ ((chunkWriteEvents (computeChunkOrder paramsShuffle 4) (fun i => i)).map Prod.fst).count 2
        = 1
    ∧ runChunkLoop (computeChunkOrder paramsShuffle 4) (fun i => i) (fun _ => none) 2 = some 2 :=
  c10_result_slots_written_exactly_once paramsShuffle 4 (fun i => i) 2 (by decide)

/- ===== Helper lemmas for parseReferenceSequences (C6) ===== -/

theorem stripName_wsFree (n : CStr) : ∀ c ∈ stripName n, isWspace c = false := by
  intro c hc
  have h := List.mem_takeWhile_imp hc
  simpa using h

theorem stripName_of_wsFree {n : CStr} (h : ∀ c ∈ n, isWspace c = false) :
    stripName n = n := by
  refine List.takeWhile_eq_self_iff.mpr ?_
  intro c hc
  simp [h c hc]

theorem ne_of_stripName_ne {n m : CStr} (h : stripName n ≠ n)
    (hm : ∀ c ∈ m, isWspace c = false) : n ≠ m := by
  intro he
  subst he
  exact h (stripName_of_wsFree hm)

theorem scanfToken_of_noLeadWs {n : CStr} (h : n.dropWhile isWspace = n) (hne : n ≠ []) :
    scanfToken n = some (stripName n) := by
  unfold scanfToken stripName
  rw [h]
  cases n with
  | nil => exact absurd rfl hne
  | cons c t => rfl

theorem scanfToken_nil : scanfToken [] = none := rfl

theorem stHash_search_cons (x : CStr × Option CStr) (m : RefMap) (k : CStr) :
    stHash_search (x :: m) k = if x.1 = k then x.2 else stHash_search m k := by
  by_cases h : x.1 = k
  · rw [if_pos h]
    unfold stHash_search
    rw [List.find?_cons_of_pos _ (by simp [h])]
  · rw [if_neg h]
    unfold stHash_search
    rw [List.find?_cons_of_neg _ (by simp [h])]

theorem keysNodup_cons {x : CStr × Option CStr} {l : RefMap}
    (hnd : ((x :: l).map Prod.fst).Nodup) :
    x.1 ∉ l.map Prod.fst ∧ (l.map Prod.fst).Nodup := by
  rw [List.map_cons] at hnd
  exact List.nodup_cons.mp hnd

theorem stHash_search_perm {m m2 : RefMap} (h : m.Perm m2)
    (hnd : (m.map Prod.fst).Nodup) (k : CStr) :
    stHash_search m k = stHash_search m2 k := by
  induction h with
  | nil => rfl
  | cons x hp ih =>
    rw [stHash_search_cons, stHash_search_cons]
    by_cases hx : x.1 = k
    · simp [hx]
    · rw [if_neg hx, if_neg hx]
      exact ih (keysNodup_cons hnd).2
  | swap x y l =>
    rw [stHash_search_cons, stHash_search_cons, stHash_search_cons, stHash_search_cons]
    have hyx : y.1 ∉ (x :: l).map Prod.fst := (keysNodup_cons hnd).1
    by_cases hy : y.1 = k
    · by_cases hx : x.1 = k
      · exfalso
        apply hyx
        rw [List.map_cons, hy, hx]
        exact List.mem_cons_self k _
      · rw [if_pos hy, if_neg hx, if_pos hy]
    · by_cases hx : x.1 = k
      · rw [if_neg hy, if_pos hx, if_pos hx]
      · rw [if_neg hy, if_neg hx, if_neg hx, if_neg hy]
  | trans h1 h2 ih1 ih2 =>
    exact (ih1 hnd).trans (ih2 ((h1.map Prod.fst).nodup hnd))

theorem stHash_search_mem {m : RefMap} (hnd : (m.map Prod.fst).Nodup) {k : CStr}
    {v : Option CStr} (hmem : (k, v) ∈ m) : stHash_search m k = v := by
  induction m with
  | nil => cases hmem
  | cons x t ih =>
    rw [stHash_search_cons]
    rcases List.mem_cons.mp hmem with he | ht
    · rw [← he]
      simp
    · have hne : x.1 ≠ k := by
        intro he2
        apply (keysNodup_cons hnd).1
        rw [he2]
        exact List.mem_map_of_mem Prod.fst ht
      rw [if_neg hne]
      exact ih (keysNodup_cons hnd).2 ht

theorem munge_keys_nodup (pending done : List (CStr × CStr))
    (hnd : ((pending ++ done).map (fun q => stripName q.1)).Nodup) :
    ((pending.map pendEntry ++ done.map doneEntry).map Prod.fst).Nodup := by
  rw [List.map_append] at hnd
  rw [List.map_append, List.map_map, List.map_map]
  show ((pending.map fun q => q.1) ++ (done.map fun q => stripName q.1)).Nodup
  rcases List.nodup_append.mp hnd with ⟨hp, hd, hdisj⟩
  refine List.nodup_append.mpr ⟨?_, hd, ?_⟩
  · have hp2 : ((pending.map fun q => q.1).map stripName).Nodup := by
      rw [List.map_map]
      exact hp
    exact List.Nodup.of_map stripName hp2
  · intro a hap had
    rcases List.mem_map.mp hap with ⟨q, hq, hqa⟩
    rcases List.mem_map.mp had with ⟨d, hd2, hda⟩
    have hwf : ∀ c ∈ a, isWspace c = false := by
      rw [← hda]
      exact stripName_wsFree d.1
    have hsa : stripName a = a := stripName_of_wsFree hwf
    have h1 : stripName q.1 ∈ pending.map fun q => stripName q.1 := by
      exact List.mem_map_of_mem (fun q => stripName q.1) hq
    have h2 : stripName q.1 ∈ done.map fun q => stripName q.1 := by
      rw [hqa, hsa, ← hda]
      exact List.mem_map_of_mem (fun q => stripName q.1) hd2
    exact hdisj h1 h2

theorem munge_fold (pending : List (CStr × CStr)) :
    ∀ (done : List (CStr × CStr)) (m : RefMap),
      m.Perm (pending.map pendEntry ++ done.map doneEntry) →
      (∀ p ∈ pending, p.1.dropWhile isWspace = p.1) →
      ((pending ++ done).map (fun q => stripName q.1)).Nodup →
      ((pending.map Prod.fst).foldl mungeStep m).Perm ((pending ++ done).map doneEntry) := by
  induction pending with
  | nil =>
    intro done m hperm hnlw hnd
    simpa using hperm
  | cons p rest ih =>
    intro done m hperm hnlw hnd
    have hnlw_p : p.1.dropWhile isWspace = p.1 := hnlw p (List.mem_cons_self p rest)
    have hnlw_rest : ∀ q ∈ rest, q.1.dropWhile isWspace = q.1 :=
      fun q hq => hnlw q (List.mem_cons_of_mem p hq)
    -- the canonical current map contents
    have hperm2 : m.Perm (pendEntry p :: (rest.map pendEntry ++ done.map doneEntry)) := by
      simpa using hperm
    -- head/tail split of the strip-name Nodup hypothesis
    have hnd2 : (stripName p.1 :: ((rest ++ done).map fun q => stripName q.1)).Nodup := by
      simpa using hnd
    have hhead : stripName p.1 ∉ (rest ++ done).map fun q => stripName q.1 :=
      (List.nodup_cons.mp hnd2).1
    have htail : ((rest ++ done).map fun q => stripName q.1).Nodup :=
      (List.nodup_cons.mp hnd2).2
    -- the list rearrangement moving p from the front to the back
    have hpl : (rest ++ (done ++ [p])).Perm (p :: (rest ++ done)) := by
      rw [← List.append_assoc]
      exact List.perm_append_singleton p (rest ++ done)
    have hnd3 : ((rest ++ (done ++ [p])).map fun q => stripName q.1).Nodup := by
      refine ((hpl.map fun q => stripName q.1).symm).nodup ?_
      simpa using hnd
    -- the next state is a permutation of the canonical next contents
    have hstep : (mungeStep m p.1).Perm
        (rest.map pendEntry ++ (done ++ [p]).map doneEntry) := by
      by_cases hcase : stripName p.1 = p.1
      · -- the token equals the name: the map is unchanged
        have htok : scanfToken p.1 = none ∨ scanfToken p.1 = some p.1 := by
          by_cases hnil : p.1 = []
          · left
            rw [hnil]
            rfl
          · right
            rw [scanfToken_of_noLeadWs hnlw_p hnil, hcase]
        have hms : mungeStep m p.1 = m := by
          rcases htok with h | h
          · simp [mungeStep, h]
          · simp [mungeStep, h]
        have hde : doneEntry p = pendEntry p := by
          unfold doneEntry pendEntry
          rw [hcase]
        rw [hms, List.map_append]
        show m.Perm (rest.map pendEntry ++ (done.map doneEntry ++ [doneEntry p]))
        rw [hde, ← List.append_assoc]
        exact hperm2.trans
          (List.perm_append_singleton (pendEntry p)
            (rest.map pendEntry ++ done.map doneEntry)).symm
      · -- the token differs: the binding moves to the stripped key
        have hnil : p.1 ≠ [] := by
          intro h0
          apply hcase
          rw [h0]
          rfl
        have htok : scanfToken p.1 = some (stripName p.1) :=
          scanfToken_of_noLeadWs hnlw_p hnil
        -- keys of the current map are distinct
        have hndC : (((pendEntry p :: (rest.map pendEntry ++ done.map doneEntry)).map
            Prod.fst)).Nodup := by
          have h0 := munge_keys_nodup (p :: rest) done hnd
          simpa using h0
        have hndm : (m.map Prod.fst).Nodup := ((hperm2.map Prod.fst).symm).nodup hndC
        -- the search under the full name finds the record's sequence
        have hsearch : stHash_search m p.1 = some p.2 := by
          rw [stHash_search_perm hperm2 hndm p.1, stHash_search_cons]
          simp [pendEntry]
        have hms : mungeStep m p.1 =
            stHash_removeAndFreeKey (stHash_insert m (stripName p.1) (some p.2)) p.1 := by
          simp only [mungeStep, htok, hsearch]
          rw [if_neg hcase]
        -- the stripped key is absent from the current map
        have htnotin : stripName p.1 ∉ m.map Prod.fst := by
          intro hmem
          have hmem2 : stripName p.1 ∈
              ((pendEntry p :: (rest.map pendEntry ++ done.map doneEntry)).map Prod.fst) :=
            (List.Perm.mem_iff (hperm2.map Prod.fst)).mp hmem
          simp only [List.map_cons, List.mem_cons, List.map_append, List.mem_append] at hmem2
          rcases hmem2 with h0 | h0 | h0
          · exact hcase (by simpa [pendEntry] using h0)
          · rcases List.mem_map.mp h0 with ⟨e, he, hek⟩
            rcases List.mem_map.mp he with ⟨q, hq, hqe⟩
            have hq1 : q.1 = stripName p.1 := by
              rw [← hek, ← hqe]
              rfl
            have hwf : ∀ c ∈ q.1, isWspace c = false := by
              rw [hq1]
              exact stripName_wsFree p.1
            apply hhead
            have : stripName q.1 = stripName p.1 := by
              rw [stripName_of_wsFree hwf, hq1]
            rw [← this]
            exact List.mem_map_of_mem _ (List.mem_append_left done hq)
          · rcases List.mem_map.mp h0 with ⟨e, he, hek⟩
            rcases List.mem_map.mp he with ⟨d, hd2, hde⟩
            have hd1 : stripName d.1 = stripName p.1 := by
              rw [← hek, ← hde]
              rfl
            apply hhead
            rw [← hd1]
            exact List.mem_map_of_mem _ (List.mem_append_right rest hd2)
        -- inserting the stripped key filters nothing
        have hins : stHash_insert m (stripName p.1) (some p.2) =
            m ++ [(stripName p.1, some p.2)] := by
          unfold stHash_insert
          congr 1
          refine List.filter_eq_self.mpr ?_
          intro q hq
          have hne : q.1 ≠ stripName p.1 := by
            intro he
            apply htnotin
            rw [← he]
            exact List.mem_map_of_mem Prod.fst hq
          simp only [Bool.not_eq_true']
          exact beq_eq_false_iff_ne.mpr hne
        -- removing the full name keeps the new binding and drops the old one
        have hrm : stHash_removeAndFreeKey (m ++ [(stripName p.1, some p.2)]) p.1 =
            (List.filter (fun q => !(q.1 == p.1)) m) ++ [(stripName p.1, some p.2)] := by
          unfold stHash_removeAndFreeKey
          rw [List.filter_append]
          congr 1
          refine List.filter_eq_self.mpr ?_
          intro q hq
          have hq2 : q = (stripName p.1, some p.2) := List.mem_singleton.mp hq
          rw [hq2]
          show (!((stripName p.1 : CStr) == p.1)) = true
          simp only [Bool.not_eq_true']
          exact beq_eq_false_iff_ne.mpr hcase
        -- the filtered map loses exactly the record's pending entry
        have hfm : (List.filter (fun q => !(q.1 == p.1)) m).Perm
            (rest.map pendEntry ++ done.map doneEntry) := by
          have h1 := hperm2.filter (fun q => !(q.1 == p.1))
          have h2 : List.filter (fun q => !(q.1 == p.1))
              (pendEntry p :: (rest.map pendEntry ++ done.map doneEntry)) =
              rest.map pendEntry ++ done.map doneEntry := by
            rw [List.filter_cons]
            have hc : (!(((pendEntry p).1 : CStr) == p.1)) = false := by
              simp [pendEntry]
            rw [hc, if_neg Bool.false_ne_true]
            refine List.filter_eq_self.mpr ?_
            intro q hq
            have hne : q.1 ≠ p.1 := by
              rcases List.mem_append.mp hq with h0 | h0
              · rcases List.mem_map.mp h0 with ⟨e, he, hee⟩
                intro heq
                have hq1 : e.1 = p.1 := by
                  rw [← hee] at heq
                  exact heq
                apply hhead
                have : stripName e.1 = stripName p.1 := by rw [hq1]
                rw [← this]
                exact List.mem_map_of_mem _ (List.mem_append_left done he)
              · rcases List.mem_map.mp h0 with ⟨d, hd2, hde⟩
                intro heq
                have : p.1 = stripName d.1 := by
                  rw [← heq, ← hde]
                  rfl
                exact (ne_of_stripName_ne hcase (stripName_wsFree d.1)) this
            simp only [Bool.not_eq_true']
            exact beq_eq_false_iff_ne.mpr hne
          rw [h2] at h1
          exact h1
        rw [hms, hins, hrm, List.map_append]
        show (List.filter (fun q => !(q.1 == p.1)) m ++ [(stripName p.1, some p.2)]).Perm
          (rest.map pendEntry ++ (done.map doneEntry ++ [doneEntry p]))
        rw [← List.append_assoc]
        exact List.Perm.append_right [(stripName p.1, some p.2)] hfm
    -- apply the induction hypothesis with the record moved to the done side
    have hrec := ih (done ++ [p]) (mungeStep m p.1) hstep hnlw_rest hnd3
    have hout : ((rest ++ (done ++ [p])).map doneEntry).Perm
        (((p :: rest) ++ done).map doneEntry) := by
      have := hpl.map doneEntry
      simpa using this
    simp only [List.map_cons, List.foldl_cons]
    exact hrec.trans hout

/-- C6 counterexample: the claim says that for every input FASTA, looking
up a contig by its whitespace-stripped name yields that contig's original
sequence.  On the FASTA whose contigs "c 1" and "c 2" both strip to "c",
the second munge overwrites the first binding: looking up "c" does not
yield the sequence AAA of contig "c 1". -/
theorem c6_colliding_names_lose_a_sequence :
    stHash_search (parseReferenceSequences fastaColliding) ("c".toList) ≠ some ("AAA".toList)
    ∧ stripName ("c 1".toList) = "c".toList
    ∧ ("c 1".toList, "AAA".toList) ∈ fastaColliding := by
  refine ⟨by decide, by decide, by decide⟩

/-- C6 amended: for every FASTA whose contig names have no leading
whitespace, whose whitespace-stripped names are each shorter than the
128-byte sscanf destination buffer of line 103 (on a longer token the C
code overflows a stack buffer and has no defined behavior to model), and
whose stripped names are pairwise distinct, parseReferenceSequences
returns exactly the map binding each stripped name (the portion of the
name before its first whitespace character) to the unchanged sequence
string, and looking up any contig by its stripped name yields that
contig's original sequence.  When two names share a stripped name the
claim fails, as the counterexample shows. -/
theorem c6_strip_lookup (fasta : List (CStr × CStr))
    (hnlw : ∀ p ∈ fasta, p.1.dropWhile isWspace = p.1)
    (_hbuf : ∀ p ∈ fasta, (stripName p.1).length < 128)
    (hnd : (fasta.map (fun q => stripName q.1)).Nodup) :
    (parseReferenceSequences fasta).Perm (fasta.map doneEntry)
    ∧ ∀ p ∈ fasta,
        stHash_search (parseReferenceSequences fasta) (stripName p.1) = some p.2 := by
  have hpr : parseReferenceSequences fasta =
      (fasta.map Prod.fst).foldl mungeStep (fasta.map pendEntry) := by
    simp only [parseReferenceSequences, fastaReadToMap, List.map_map]
    rfl
  have hperm0 : (fasta.map pendEntry).Perm
      (fasta.map pendEntry ++ (([] : List (CStr × CStr)).map doneEntry)) := by
    simp
  have hnd0 : ((fasta ++ []).map (fun q : CStr × CStr => stripName q.1)).Nodup := by
    simpa using hnd
  have hmain := munge_fold fasta [] (fasta.map pendEntry) hperm0 hnlw hnd0
  rw [List.append_nil] at hmain
  rw [← hpr] at hmain
  refine ⟨hmain, ?_⟩
  intro p hp
  have hndkeys : ((fasta.map doneEntry).map Prod.fst).Nodup := by
    rw [List.map_map]
    show (fasta.map fun q => stripName q.1).Nodup
    exact hnd
  have hndfinal : ((parseReferenceSequences fasta).map Prod.fst).Nodup :=
    ((hmain.map Prod.fst).symm).nodup hndkeys
  rw [stHash_search_perm hmain hndfinal]
  exact stHash_search_mem hndkeys (List.mem_map_of_mem doneEntry hp)

/-- C6 witness: the amended theorem applied to the concrete two-contig
FASTA with distinct stripped names; contig "ctg1 length=1000" is found
under "ctg1" with its original sequence. -/
theorem c6_witness :
    (parseReferenceSequences fastaDistinct).Perm (fastaDistinct.map doneEntry)
    ∧ stHash_search (parseReferenceSequences fastaDistinct)
        (stripName ("ctg1 length=1000".toList)) = some ("ACGT".toList) :=
  ⟨(c6_strip_lookup fastaDistinct (by decide) (by decide) (by decide)).1,
   (c6_strip_lookup fastaDistinct (by decide) (by decide) (by decide)).2
     ("ctg1 length=1000".toList, "ACGT".toList) (by decide)⟩
